import Mathlib

/-!
# Verification of the tempestai token text splitter

Shallow embedding, over `List Char` strings, of
`src/tempest/text_splitters/token.py` (`TokenTextSplitter`).

The helper utilities that file imports from
`tempest.core.text_splitters.utils` (`tokenizer`, `split_by_sep`,
`split_by_char`, `split_by_fns`, `merge_splits`) and the
`tempest.core.document.Document` record are not part of the provided
sources; they are modelled from the specification (sections 3, 4.1, 4.2,
4.4 and the data model), as marked on each definition.

Python `int` parameters (`chunk_size`, `chunk_overlap`) are embedded as
`Int`; token counts are `Nat` and are cast where the code compares them
against the configuration values.  The recursion of `_split` is embedded
with explicit fuel (`none` on exhaustion), because the Python code can
genuinely fail to terminate for non-positive `chunk_size`.
-/

set_option maxHeartbeats 1000000

/-- Word accumulator for `tokenizer`: `cur` holds the characters of the
word currently being read, in reverse order. -/
def tokenizerAux (cur : List Char) : List Char → List (List Char)
  | [] => if cur.isEmpty then [] else [cur.reverse]
  | c :: cs =>
    if c.isWhitespace then
      if cur.isEmpty then tokenizerAux [] cs
      else cur.reverse :: tokenizerAux [] cs
    else tokenizerAux (c :: cur) cs

/-- Modelled from the spec: `tokenizer` from
`tempest.core.text_splitters.utils` (not in `src/`).  "Reference
behavior: split on whitespace (word-level tokenization)" — the list of
maximal whitespace-free words, as Python `str.split()` with no argument;
the splitter only ever uses its length. -/
def tokenizer (s : List Char) : List (List Char) :=
  tokenizerAux [] s

/-- Token count of a string: `len(tokenizer(text))` in the source. -/
def tokenLen (s : List Char) : Nat :=
  (tokenizer s).length

/-- Word-counting state machine: `inWord` records whether the previous
character was part of a word.  Counts the words of the suffix. -/
def tokCount (inWord : Bool) : List Char → Nat
  | [] => if inWord then 1 else 0
  | c :: cs =>
    if c.isWhitespace then (if inWord then 1 else 0) + tokCount false cs
    else tokCount true cs

theorem tokenizerAux_length (s : List Char) :
    ∀ cur : List Char, (tokenizerAux cur s).length = tokCount (!cur.isEmpty) s := by
  induction s with
  | nil =>
    intro cur
    cases cur <;> simp [tokenizerAux, tokCount]
  | cons c cs ih =>
    intro cur
    by_cases hws : c.isWhitespace
    · cases cur <;> simp [tokenizerAux, tokCount, hws, ih] <;> omega
    · cases cur <;> simp [tokenizerAux, tokCount, hws, ih ]

theorem tokenLen_eq_tokCount (s : List Char) : tokenLen s = tokCount false s := by
  simpa [tokenLen, tokenizer] using tokenizerAux_length s []

theorem tokCount_le_length (s : List Char) :
    ∀ b, tokCount b s ≤ s.length + (if b then 1 else 0) := by
  induction s with
  | nil => intro b; cases b <;> simp [tokCount]
  | cons c cs ih =>
    intro b
    by_cases hws : c.isWhitespace
    · have h0 := ih false
      simp at h0
      cases b <;> simp [tokCount, hws] <;> omega
    · have h1 := ih true
      simp at h1
      cases b <;> simp [tokCount, hws] <;> omega

/-- A string of length at most `n` has at most `n` tokens. -/
theorem tokenLen_le_length (s : List Char) : tokenLen s ≤ s.length := by
  have := tokCount_le_length s false
  simpa [tokenLen_eq_tokCount] using this

theorem tokCount_true_le (s : List Char) :
    tokCount true s ≤ tokCount false s + 1 := by
  induction s with
  | nil => simp [tokCount]
  | cons c cs ih =>
    by_cases hws : c.isWhitespace <;> simp [tokCount, hws] <;> omega

/-- Concatenation can only merge tokens at the boundary, never create
new ones: token counting is subadditive. -/
theorem tokCount_append (s : List Char) :
    ∀ b (t : List Char), tokCount b (s ++ t) ≤ tokCount b s + tokCount false t := by
  induction s with
  | nil =>
    intro b t
    cases b
    · simp [tokCount]
    · have := tokCount_true_le t
      simp [tokCount]
      omega
  | cons c cs ih =>
    intro b t
    by_cases hws : c.isWhitespace
    · have := ih false t
      cases b <;> simp [tokCount, hws] <;> omega
    · have := ih true t
      cases b <;> simp [tokCount, hws] <;> omega

theorem tokenLen_append (s t : List Char) :
    tokenLen (s ++ t) ≤ tokenLen s + tokenLen t := by
  simpa [tokenLen_eq_tokCount] using tokCount_append s false t

/-- Fuel-driven worker for `splitOnSep`: `acc` holds the current piece in
reverse.  The fuel (initialised to the length of the string) only exists
to make the recursion structural; it never runs out in `splitOnSep`. -/
def splitOnSepFuel (sep : List Char) : Nat → List Char → List Char → List (List Char)
  | 0, acc, s => [acc.reverse ++ s]
  | _ + 1, acc, [] => [acc.reverse]
  | fuel + 1, acc, c :: cs =>
    if sep ≠ [] ∧ sep.isPrefixOf (c :: cs) then
      acc.reverse :: splitOnSepFuel sep fuel [] ((c :: cs).drop sep.length)
    else
      splitOnSepFuel sep fuel (c :: acc) cs

/-- Python `text.split(sep)` on character lists: greedy left-to-right
scan for non-overlapping occurrences of `sep`, keeping empty pieces. -/
def splitOnSep (sep s : List Char) : List (List Char) :=
  splitOnSepFuel sep s.length [] s

/-- Rejoin pieces with the separator between them (`sep.join(pieces)`). -/
def intercalateSep (sep : List Char) : List (List Char) → List Char
  | [] => []
  | [p] => p
  | p :: ps => p ++ sep ++ intercalateSep sep ps

theorem splitOnSepFuel_ne_nil (sep : List Char) :
    ∀ fuel acc s, splitOnSepFuel sep fuel acc s ≠ [] := by
  intro fuel acc s
  match fuel, s with
  | 0, s => simp [splitOnSepFuel]
  | _ + 1, [] => simp [splitOnSepFuel]
  | fuel + 1, c :: cs =>
    by_cases h : sep ≠ [] ∧ sep.isPrefixOf (c :: cs)
    · simp [splitOnSepFuel, h]
    · simp only [splitOnSepFuel, if_neg h]
      exact splitOnSepFuel_ne_nil sep fuel (c :: acc) cs

theorem intercalateSep_cons (sep p : List Char) (ps : List (List Char)) (h : ps ≠ []) :
    intercalateSep sep (p :: ps) = p ++ sep ++ intercalateSep sep ps := by
  cases ps with
  | nil => exact absurd rfl h
  | cons q qs => rfl

/-- Splitting and rejoining reconstructs the input. -/
theorem splitOnSepFuel_join (sep : List Char) (hsep : sep ≠ []) :
    ∀ fuel acc s, s.length ≤ fuel →
      intercalateSep sep (splitOnSepFuel sep fuel acc s) = acc.reverse ++ s := by
  intro fuel
  induction fuel with
  | zero =>
    intro acc s hs
    have : s = [] := List.eq_nil_of_length_eq_zero (Nat.le_zero.mp hs)
    subst this
    simp [splitOnSepFuel, intercalateSep]
  | succ fuel ih =>
    intro acc s hs
    match s with
    | [] => simp [splitOnSepFuel, intercalateSep]
    | c :: cs =>
      by_cases h : sep ≠ [] ∧ sep.isPrefixOf (c :: cs)
      · have hpre : sep <+: (c :: cs) := List.isPrefixOf_iff_prefix.mp h.2
        obtain ⟨r, hr⟩ := hpre
        have hlen : ((c :: cs).drop sep.length).length ≤ fuel := by
          have h1 : 1 ≤ sep.length := List.length_pos.mpr hsep
          simp only [List.length_drop, List.length_cons]
          simp only [List.length_cons] at hs
          omega
        have hrest := ih [] ((c :: cs).drop sep.length) hlen
        have hdrop : (c :: cs).drop sep.length = r := by
          rw [← hr, List.drop_left]
        simp only [splitOnSepFuel, if_pos h]
        rw [intercalateSep_cons sep _ _ (splitOnSepFuel_ne_nil sep fuel [] _)]
        rw [hrest, hdrop]
        simp only [List.reverse_nil, List.nil_append]
        rw [List.append_assoc, hr]
      · simp only [splitOnSepFuel, if_neg h]
        have := ih (c :: acc) cs (by simp only [List.length_cons] at hs; omega)
        rw [this]
        simp

/-- When at least two pieces are rejoined, each piece is shorter than
the whole by at least one separator length. -/
theorem length_le_intercalateSep (sep : List Char) (ps : List (List Char)) :
    ∀ p ∈ ps, 2 ≤ ps.length → p.length + sep.length ≤ (intercalateSep sep ps).length := by
  induction ps with
  | nil => intro p hp; exact absurd hp (List.not_mem_nil p)
  | cons a l ih =>
    intro p hp h2
    have hl : l ≠ [] := by
      intro h
      subst h
      simp at h2
    rw [intercalateSep_cons sep a l hl]
    rcases List.mem_cons.mp hp with hpa | hpl
    · subst hpa
      simp only [List.length_append]
      have : 0 ≤ (intercalateSep sep l).length := Nat.zero_le _
      omega
    · match l, hpl with
      | [q], hpl =>
        have : p = q := by simpa using hpl
        subst this
        simp [intercalateSep, List.length_append]
        omega
      | q :: r :: m, hpl =>
        have := ih p hpl (by simp)
        simp only [List.length_append]
        omega

theorem splitOnSep_join (sep : List Char) (hsep : sep ≠ []) (s : List Char) :
    intercalateSep sep (splitOnSep sep s) = s := by
  simpa using splitOnSepFuel_join sep hsep s.length [] s (le_refl _)

/-- Any piece of a genuine split (two or more pieces) is strictly
shorter than the input. -/
theorem splitOnSep_piece_lt (sep : List Char) (hsep : sep ≠ []) (s : List Char)
    (p : List Char) (hp : p ∈ splitOnSep sep s) (h2 : 2 ≤ (splitOnSep sep s).length) :
    p.length < s.length := by
  have h := length_le_intercalateSep sep (splitOnSep sep s) p hp h2
  rw [splitOnSep_join sep hsep] at h
  have : 1 ≤ sep.length := List.length_pos.mpr hsep
  omega

/-- With an empty separator no occurrence is ever found, so the input
comes back whole. -/
theorem splitOnSep_nil_sep (s : List Char) : splitOnSep [] s = [s] := by
  suffices h : ∀ fuel acc s, splitOnSepFuel [] fuel acc s = [acc.reverse ++ s] by
    simpa using h s.length [] s
  intro fuel
  induction fuel with
  | zero => intro acc s; simp [splitOnSepFuel]
  | succ fuel ih =>
    intro acc s
    match s with
    | [] => simp [splitOnSepFuel]
    | c :: cs =>
      have hcond : ¬(([] : List Char) ≠ [] ∧ List.isPrefixOf [] (c :: cs)) := by
        simp
      simp only [splitOnSepFuel, if_neg hcond]
      rw [ih (c :: acc) cs]
      simp

/-- Modelled from the spec: `split_by_sep(sep)` from
`tempest.core.text_splitters.utils` (not in `src/`).  "Split text on a
literal separator string (default: double newline) ... each resulting
fragment does not include the separator itself ... empties must be
dropped." -/
def split_by_sep (sep : List Char) (text : List Char) : List (List Char) :=
  (splitOnSep sep text).filter (fun p => !p.isEmpty)

/-- Modelled from the spec: `split_by_char()` from
`tempest.core.text_splitters.utils` (not in `src/`).  The character-level
fallback strategy: splits the text into its individual characters
("each at or below character-level granularity"). -/
def split_by_char (text : List Char) : List (List Char) :=
  text.map (fun c => [c])

/-- First strategy whose result is an actual split (more than one
fragment); `none` when no strategy splits the text. -/
def firstSplit : List (List Char → List (List Char)) → List Char → Option (List (List Char))
  | [], _ => none
  | fn :: fns, text =>
    let splits := fn text
    if 1 < splits.length then some splits else firstSplit fns text

/-- Modelled from the spec: `split_by_fns(text, fns, sub_fns)` from
`tempest.core.text_splitters.utils` (not in `src/`).  "Tries each
primary strategy in order; the first strategy producing more than one
fragment wins ... If no primary strategy produces a split, fall back to
the fallback strategies using the same rule.  If nothing splits the text
at all, return the whole text as a single fragment with
`is_sentence = true` (this is the only way a fragment can be marked as
an atomic, unsplittable sentence)." -/
def split_by_fns (text : List Char) (fns sub_fns : List (List Char → List (List Char))) :
    List (List Char) × Bool :=
  match firstSplit fns text with
  | some splits => (splits, false)
  | none =>
    match firstSplit sub_fns text with
    | some splits => (splits, false)
    | none => ([text], true)

theorem firstSplit_some (fns : List (List Char → List (List Char))) (text : List Char)
    (splits : List (List Char)) (h : firstSplit fns text = some splits) :
    1 < splits.length := by
  induction fns with
  | nil => simp [firstSplit] at h
  | cons fn fns ih =>
    by_cases h1 : 1 < (fn text).length
    · simp only [firstSplit, if_pos h1, Option.some.injEq] at h
      subst h
      exact h1
    · simp only [firstSplit, if_neg h1] at h
      exact ih h

theorem split_by_fns_ne_nil (text : List Char)
    (fns sub_fns : List (List Char → List (List Char))) :
    (split_by_fns text fns sub_fns).1 ≠ [] := by
  unfold split_by_fns
  match h1 : firstSplit fns text with
  | some splits =>
    have := firstSplit_some fns text splits h1
    simp only
    intro h
    subst h
    simp at this
  | none =>
    match h2 : firstSplit sub_fns text with
    | some splits =>
      have := firstSplit_some sub_fns text splits h2
      simp only
      intro h
      subst h
      simp at this
    | none => simp

/-- Every sub-text handed back by the strategy cascade is strictly
shorter than the input, except in the no-strategy-splits case, which can
only happen for texts of length at most one. -/
theorem split_by_fns_pieces (sep text : List Char) :
    ∀ p ∈ (split_by_fns text [split_by_sep sep] [split_by_char]).1,
      p.length < text.length ∨
        ((split_by_fns text [split_by_sep sep] [split_by_char]).1 = [text] ∧
          text.length ≤ 1) := by
  intro p hp
  by_cases hA : 1 < (split_by_sep sep text).length
  · left
    simp only [split_by_fns, firstSplit, if_pos hA] at hp
    have hmem : p ∈ splitOnSep sep text := List.mem_of_mem_filter hp
    have hsep : sep ≠ [] := by
      intro h
      subst h
      rw [split_by_sep, splitOnSep_nil_sep] at hA
      have : ((([text] : List (List Char))).filter (fun p => !p.isEmpty)).length ≤ 1 := by
        cases htext : text <;> simp [List.filter]
      omega
    have h2 : 2 ≤ (splitOnSep sep text).length := by
      have := List.length_filter_le (fun p => !p.isEmpty) (splitOnSep sep text)
      rw [split_by_sep] at hA
      omega
    exact splitOnSep_piece_lt sep hsep text p hmem h2
  · by_cases hB : 1 < (split_by_char text).length
    · left
      simp only [split_by_fns, firstSplit, if_neg hA, if_pos hB] at hp
      obtain ⟨c, _, hc⟩ := List.mem_map.mp hp
      have : text.length = (split_by_char text).length := by
        simp [split_by_char]
      subst hc
      simp
      omega
    · right
      have hlen : text.length ≤ 1 := by
        have : (split_by_char text).length = text.length := by simp [split_by_char]
        omega
      refine ⟨?_, hlen⟩
      simp [split_by_fns, firstSplit, if_neg hA, if_neg hB]

/-- Fragment record produced by `TokenTextSplitter._split`: in the
source a dict with keys `text`, `is_sentence`, `token_size`. -/
structure Fragment where
  text : List Char
  is_sentence : Bool
  token_size : Nat
deriving DecidableEq

/-- `TokenTextSplitter.__init__` (token.py lines 31-51): raises
`ValueError` iff `chunk_overlap > chunk_size`; otherwise the
configuration is stored. -/
def TokenTextSplitter.init (chunk_size chunk_overlap : Int) : Except String (Int × Int) :=
  if chunk_overlap > chunk_size then
    Except.error "Got a larger chunk_overlap than chunk_size. chunk_overlap should be smaller."
  else
    Except.ok (chunk_size, chunk_overlap)

/-- Loop body of `TokenTextSplitter._split` (token.py lines 91-100): for
each sub-text, emit it as a non-sentence fragment when it fits the
budget, otherwise recurse (`rec`) and splice the recursive fragments in
place; `none` propagates fuel exhaustion of the recursion. -/
def splitPieces (rec : List Char → Option (List Fragment)) (chunk_size : Int) :
    List (List Char) → Option (List Fragment)
  | [] => some []
  | p :: ps =>
    let split_len := tokenLen p
    match (if (split_len : Int) ≤ chunk_size then
             some [{ text := p, is_sentence := false, token_size := split_len }]
           else rec p),
          splitPieces rec chunk_size ps with
    | some head, some tail => some (head ++ tail)
    | _, _ => none

/-- `TokenTextSplitter._split` (token.py lines 85-102), with explicit
fuel: the Python recursion is not structurally decreasing (when no
strategy splits the text it calls itself on the unchanged text), and it
genuinely diverges for non-positive `chunk_size`, so fuel exhaustion is
modelled as `none`. -/
def TokenTextSplitter.splitFuel (chunk_size : Int) (separator : List Char) :
    Nat → List Char → Option (List Fragment)
  | 0, _ => none
  | fuel + 1, text =>
    let text_len := tokenLen text
    if (text_len : Int) ≤ chunk_size then
      some [{ text := text, is_sentence := true, token_size := text_len }]
    else
      splitPieces (TokenTextSplitter.splitFuel chunk_size separator fuel) chunk_size
        (split_by_fns text [split_by_sep separator] [split_by_char]).1

/-- `_split` at its canonical fuel: `text.length + 1` fuel suffices
whenever the Python recursion terminates (proved below for
`1 ≤ chunk_size`). -/
def TokenTextSplitter.splitText (chunk_size : Int) (separator text : List Char) :
    Option (List Fragment) :=
  TokenTextSplitter.splitFuel chunk_size separator (text.length + 1) text

def sumSizes (l : List Fragment) : Nat :=
  (l.map Fragment.token_size).sum

/-- Backward walk for the overlap window over the reversed chunk: keep
taking fragments while the accumulated token size stays within
`chunk_overlap`. -/
def takeOverlap (chunk_overlap : Int) : Nat → List Fragment → List Fragment
  | _, [] => []
  | acc, f :: rest =>
    if ((acc + f.token_size : Nat) : Int) ≤ chunk_overlap then
      f :: takeOverlap chunk_overlap (acc + f.token_size) rest
    else []

/-- Modelled from the spec (§4.4): the trailing overlap window of a
closed chunk — "walk backward through the fragments just placed in the
closed chunk, accumulating fragments (most-recent-first) until the
accumulated token size reaches `chunk_overlap`, then lay them down in
original order as the prefix of the new chunk". -/
def overlapWindow (chunk_overlap : Int) (chunk : List Fragment) : List Fragment :=
  (takeOverlap chunk_overlap 0 chunk.reverse).reverse

/-- Greedy merge loop, chunks kept as fragment lists: walk the fragments
in order appending to the accumulator `cur`; when the next fragment
would overflow a non-empty accumulator, close it (emit) and reseed with
the overlap window, then continue appending forward from the current
fragment; the final non-empty accumulator is emitted regardless of
size. -/
def mergeAux (chunk_size chunk_overlap : Int) (cur : List Fragment) :
    List Fragment → List (List Fragment)
  | [] => if cur.isEmpty then [] else [cur]
  | f :: rest =>
    if chunk_size < ((sumSizes cur + f.token_size : Nat) : Int) ∧ ¬cur.isEmpty then
      cur :: mergeAux chunk_size chunk_overlap (overlapWindow chunk_overlap cur ++ [f]) rest
    else
      mergeAux chunk_size chunk_overlap (cur ++ [f]) rest

def merge_frag_chunks (chunk_size chunk_overlap : Int) (splits : List Fragment) :
    List (List Fragment) :=
  mergeAux chunk_size chunk_overlap [] splits

/-- Reassemble a chunk from its fragments (contiguous concatenation). -/
def joinFrags (chunk : List Fragment) : List Char :=
  (chunk.map Fragment.text).flatten

/-- Modelled from the spec (§4.4 Merger): `merge_splits(splits,
chunk_size, chunk_overlap)` from `tempest.core.text_splitters.utils`
(not in `src/`): greedy accumulation of fragments into chunks with a
trailing overlap window carried into each following chunk. -/
def merge_splits (splits : List Fragment) (chunk_size chunk_overlap : Int) :
    List (List Char) :=
  (merge_frag_chunks chunk_size chunk_overlap splits).map joinFrags

/-- `TokenTextSplitter.from_text` (token.py lines 53-67): split, then
merge; `none` propagates non-termination of `_split`. -/
def TokenTextSplitter.from_text (chunk_size chunk_overlap : Int)
    (separator text : List Char) : Option (List (List Char)) :=
  (TokenTextSplitter.splitText chunk_size separator text).map
    (fun splits => merge_splits splits chunk_size chunk_overlap)

/-- Modelled from the spec: `Document` from `tempest.core.document` (not
in `src/`): a record `{text, metadata}` with read accessors; the
metadata type is kept abstract. -/
structure Document (μ : Type) where
  text : List Char
  metadata : μ

def Document.get_content {μ : Type} (d : Document μ) : List Char :=
  d.text

def Document.get_metadata {μ : Type} (d : Document μ) : μ :=
  d.metadata

/-- `TokenTextSplitter.from_documents` (token.py lines 69-83): split each
document's content and wrap every chunk in a new `Document` carrying the
source document's metadata mapping. -/
def TokenTextSplitter.from_documents {μ : Type} (chunk_size chunk_overlap : Int)
    (separator : List Char) : List (Document μ) → Option (List (Document μ))
  | [] => some []
  | d :: ds =>
    match TokenTextSplitter.from_text chunk_size chunk_overlap separator
            (Document.get_content d),
          TokenTextSplitter.from_documents chunk_size chunk_overlap separator ds with
    | some texts, some rest =>
      some (texts.map (fun t => { text := t, metadata := Document.get_metadata d }) ++ rest)
    | _, _ => none

/-- Default separator of the constructor (two newlines). -/
def default_separator : List Char :=
  ['\n', '\n']

theorem splitPieces_sound (rec : List Char → Option (List Fragment)) (chunk_size : Int)
    (P : Fragment → Prop) :
    ∀ pieces : List (List Char),
      (∀ p ∈ pieces, (tokenLen p : Int) ≤ chunk_size →
        P { text := p, is_sentence := false, token_size := tokenLen p }) →
      (∀ p ∈ pieces, ¬((tokenLen p : Int) ≤ chunk_size) →
        ∃ o, rec p = some o ∧ o ≠ [] ∧ ∀ f ∈ o, P f) →
      ∃ out, splitPieces rec chunk_size pieces = some out ∧
        (pieces ≠ [] → out ≠ []) ∧ ∀ f ∈ out, P f := by
  intro pieces
  induction pieces with
  | nil =>
    intro _ _
    exact ⟨[], rfl, by simp, by simp⟩
  | cons p ps ih =>
    intro hfit hrec
    obtain ⟨tail, htail, _, htailP⟩ :=
      ih (fun q hq => hfit q (List.mem_cons_of_mem p hq))
        (fun q hq => hrec q (List.mem_cons_of_mem p hq))
    by_cases hf : (tokenLen p : Int) ≤ chunk_size
    · refine ⟨{ text := p, is_sentence := false, token_size := tokenLen p } :: tail, ?_, ?_, ?_⟩
      · simp only [splitPieces, if_pos hf, htail, List.singleton_append]
      · simp
      · intro f hfm
        rcases List.mem_cons.mp hfm with h | h
        · subst h
          exact hfit p (List.mem_cons_self p ps) hf
        · exact htailP f h
    · obtain ⟨o, ho, hone, hoP⟩ := hrec p (List.mem_cons_self p ps) hf
      refine ⟨o ++ tail, ?_, ?_, ?_⟩
      · simp only [splitPieces, if_neg hf, ho, htail]
      · intro _
        simp [hone]
      · intro f hfm
        rcases List.mem_append.mp hfm with h | h
        · exact hoP f h
        · exact htailP f h

theorem splitPieces_mem (rec : List Char → Option (List Fragment)) (chunk_size : Int)
    (P : Fragment → Prop) :
    ∀ pieces out, splitPieces rec chunk_size pieces = some out →
      (∀ p ∈ pieces, (tokenLen p : Int) ≤ chunk_size →
        P { text := p, is_sentence := false, token_size := tokenLen p }) →
      (∀ p ∈ pieces, ¬((tokenLen p : Int) ≤ chunk_size) →
        ∀ o, rec p = some o → ∀ f ∈ o, P f) →
      ∀ f ∈ out, P f := by
  intro pieces
  induction pieces with
  | nil =>
    intro out h _ _
    simp only [splitPieces, Option.some.injEq] at h
    subst h
    simp
  | cons p ps ih =>
    intro out h hfit hrec
    by_cases hf : (tokenLen p : Int) ≤ chunk_size
    · simp only [splitPieces, if_pos hf] at h
      match hst : splitPieces rec chunk_size ps with
      | none => rw [hst] at h; exact absurd h (by simp)
      | some tail =>
        rw [hst] at h
        simp only [Option.some.injEq] at h
        subst h
        intro f hfm
        rcases List.mem_cons.mp hfm with hq | hq
        · subst hq
          exact hfit p (List.mem_cons_self p ps) hf
        · exact ih tail hst (fun q hq => hfit q (List.mem_cons_of_mem p hq))
            (fun q hq => hrec q (List.mem_cons_of_mem p hq)) f hq
    · simp only [splitPieces, if_neg hf] at h
      match hro : rec p, hst : splitPieces rec chunk_size ps with
      | none, _ => rw [hro] at h; exact absurd h (by simp)
      | some o, none => rw [hro, hst] at h; exact absurd h (by simp)
      | some o, some tail =>
        rw [hro, hst] at h
        simp only [Option.some.injEq] at h
        subst h
        intro f hfm
        rcases List.mem_append.mp hfm with hq | hq
        · exact hrec p (List.mem_cons_self p ps) hf o hro f hq
        · exact ih tail hst (fun q hq => hfit q (List.mem_cons_of_mem p hq))
            (fun q hq => hrec q (List.mem_cons_of_mem p hq)) f hq

/-- Core invariant of `_split` for positive budgets: it terminates
(fuel `length + 1` suffices) with a non-empty fragment list, every
fragment carries the token count of its own text, and every fragment
fits the budget — note in particular that no oversized fragment is ever
produced. -/
theorem splitFuel_sound (chunk_size : Int) (hcs : 1 ≤ chunk_size) (sep : List Char) :
    ∀ fuel text, text.length < fuel →
      ∃ frags, TokenTextSplitter.splitFuel chunk_size sep fuel text = some frags ∧
        frags ≠ [] ∧
        ∀ f ∈ frags, f.token_size = tokenLen f.text ∧ (f.token_size : Int) ≤ chunk_size := by
  intro fuel
  induction fuel with
  | zero =>
    intro text h
    exact absurd h (by omega)
  | succ fuel ih =>
    intro text hlen
    by_cases hfit : (tokenLen text : Int) ≤ chunk_size
    · refine ⟨[{ text := text, is_sentence := true, token_size := tokenLen text }], ?_, by simp, ?_⟩
      · simp [TokenTextSplitter.splitFuel, hfit]
      · intro f hf
        simp only [List.mem_singleton] at hf
        subst hf
        exact ⟨rfl, hfit⟩
    · have hpieces := split_by_fns_pieces sep text
      obtain ⟨out, hout, hne, hP⟩ :=
        splitPieces_sound (TokenTextSplitter.splitFuel chunk_size sep fuel) chunk_size
          (fun f => f.token_size = tokenLen f.text ∧ (f.token_size : Int) ≤ chunk_size)
          (split_by_fns text [split_by_sep sep] [split_by_char]).1
          (fun p _ hp => ⟨rfl, hp⟩)
          (by
            intro p hp hpfit
            rcases hpieces p hp with hshort | ⟨hone, hsmall⟩
            · exact ih p (by omega)
            · exfalso
              have hpt : p = text := by
                rw [hone] at hp
                simpa using hp
              subst hpt
              have := tokenLen_le_length p
              have : (tokenLen p : Int) ≤ 1 := by
                omega
              omega)
      refine ⟨out, ?_, hne (split_by_fns_ne_nil text _ _), hP⟩
      simp only [TokenTextSplitter.splitFuel, if_neg hfit]
      exact hout

theorem mergeAux_ne_nil (chunk_size chunk_overlap : Int) :
    ∀ (frags cur : List Fragment), cur ≠ [] →
      mergeAux chunk_size chunk_overlap cur frags ≠ [] := by
  intro frags
  induction frags with
  | nil =>
    intro cur hcur
    simp [mergeAux, hcur]
  | cons f rest ih =>
    intro cur hcur
    by_cases h : chunk_size < ((sumSizes cur + f.token_size : Nat) : Int) ∧ ¬cur.isEmpty
    · simp only [mergeAux, if_pos h]
      exact List.cons_ne_nil _ _
    · simp only [mergeAux, if_neg h]
      exact ih (cur ++ [f]) (by simp)

/-- The first chunk emitted by the merge loop extends the accumulator it
started from. -/
theorem mergeAux_head (chunk_size chunk_overlap : Int) :
    ∀ (frags cur l : List Fragment) (t : List (List Fragment)),
      mergeAux chunk_size chunk_overlap cur frags = l :: t → cur <+: l := by
  intro frags
  induction frags with
  | nil =>
    intro cur l t h
    by_cases hcur : cur.isEmpty
    · simp [mergeAux, hcur] at h
    · simp only [mergeAux, if_neg hcur, List.cons.injEq] at h
      exact h.1 ▸ List.prefix_refl cur
  | cons f rest ih =>
    intro cur l t h
    by_cases hc : chunk_size < ((sumSizes cur + f.token_size : Nat) : Int) ∧ ¬cur.isEmpty
    · simp only [mergeAux, if_pos hc, List.cons.injEq] at h
      exact h.1 ▸ List.prefix_refl cur
    · simp only [mergeAux, if_neg hc] at h
      have := ih (cur ++ [f]) l t h
      exact List.IsPrefix.trans (List.prefix_append cur [f]) this

theorem takeOverlap_isPrefix (chunk_overlap : Int) :
    ∀ (l : List Fragment) (acc : Nat), takeOverlap chunk_overlap acc l <+: l := by
  intro l
  induction l with
  | nil => intro acc; simp [takeOverlap]
  | cons f rest ih =>
    intro acc
    by_cases h : ((acc + f.token_size : Nat) : Int) ≤ chunk_overlap
    · simp only [takeOverlap, if_pos h]
      exact List.cons_prefix_cons.mpr ⟨rfl, ih (acc + f.token_size)⟩
    · simp only [takeOverlap, if_neg h]
      exact List.nil_prefix

/-- The overlap window is a suffix of the closed chunk: it pulls
fragments from the immediately preceding chunk only, in original
order. -/
theorem overlapWindow_isSuffix (chunk_overlap : Int) (chunk : List Fragment) :
    overlapWindow chunk_overlap chunk <:+ chunk := by
  obtain ⟨t, ht⟩ := takeOverlap_isPrefix chunk_overlap chunk.reverse 0
  refine ⟨t.reverse, ?_⟩
  rw [overlapWindow, ← List.reverse_append, ht, List.reverse_reverse]

theorem takeOverlap_sum (chunk_overlap : Int) :
    ∀ (l : List Fragment) (acc : Nat), (acc : Int) ≤ chunk_overlap →
      ((acc + sumSizes (takeOverlap chunk_overlap acc l) : Nat) : Int) ≤ chunk_overlap := by
  intro l
  induction l with
  | nil => intro acc h; simpa [takeOverlap, sumSizes] using h
  | cons f rest ih =>
    intro acc h
    by_cases hc : ((acc + f.token_size : Nat) : Int) ≤ chunk_overlap
    · simp only [takeOverlap, if_pos hc]
      have := ih (acc + f.token_size) hc
      simp only [sumSizes, List.map_cons, List.sum_cons] at this ⊢
      push_cast at this ⊢
      omega
    · simp only [takeOverlap, if_neg hc, sumSizes, List.map_nil, List.sum_nil]
      simpa using h

/-- The accumulated token size of the overlap window is at most
`chunk_overlap`. -/
theorem overlapWindow_sum (chunk_overlap : Int) (hco : 0 ≤ chunk_overlap)
    (chunk : List Fragment) :
    ((sumSizes (overlapWindow chunk_overlap chunk) : Nat) : Int) ≤ chunk_overlap := by
  have h := takeOverlap_sum chunk_overlap chunk.reverse 0 (by simpa using hco)
  rw [overlapWindow]
  have hrev : sumSizes (takeOverlap chunk_overlap 0 chunk.reverse).reverse =
      sumSizes (takeOverlap chunk_overlap 0 chunk.reverse) := by
    simp [sumSizes, List.map_reverse, List.sum_reverse]
  rw [hrev]
  simpa using h

/-- Every chunk after the first starts with the overlap window of the
chunk immediately before it. -/
theorem mergeAux_consecutive (chunk_size chunk_overlap : Int) :
    ∀ (frags cur : List Fragment) (i : Nat),
      i + 1 < (mergeAux chunk_size chunk_overlap cur frags).length →
      overlapWindow chunk_overlap
          ((mergeAux chunk_size chunk_overlap cur frags).getD i []) <+:
        (mergeAux chunk_size chunk_overlap cur frags).getD (i + 1) [] := by
  intro frags
  induction frags with
  | nil =>
    intro cur i hi
    by_cases hcur : cur.isEmpty
    · simp [mergeAux, hcur] at hi
    · simp [mergeAux, hcur] at hi
  | cons f rest ih =>
    intro cur i hi
    by_cases hc : chunk_size < ((sumSizes cur + f.token_size : Nat) : Int) ∧ ¬cur.isEmpty
    · simp only [mergeAux, if_pos hc] at hi ⊢
      match i with
      | 0 =>
        have hne : mergeAux chunk_size chunk_overlap
            (overlapWindow chunk_overlap cur ++ [f]) rest ≠ [] :=
          mergeAux_ne_nil chunk_size chunk_overlap rest _ (by simp)
        match hL : mergeAux chunk_size chunk_overlap
            (overlapWindow chunk_overlap cur ++ [f]) rest with
        | [] => exact absurd hL hne
        | l :: t =>
          have hpre := mergeAux_head chunk_size chunk_overlap rest _ l t hL
          simp only [hL, List.getD_cons_zero, List.getD_cons_succ]
          exact List.IsPrefix.trans (List.prefix_append _ [f]) hpre
      | i + 1 =>
        have := ih (overlapWindow chunk_overlap cur ++ [f]) i (by simpa using hi)
        simpa using this
    · simp only [mergeAux, if_neg hc] at hi ⊢
      exact ih (cur ++ [f]) i hi

/-- Every fragment inside every merged chunk comes from the accumulator
or from the input fragments. -/
theorem mergeAux_mem (chunk_size chunk_overlap : Int) (Q : Fragment → Prop) :
    ∀ (frags cur : List Fragment),
      (∀ f ∈ cur, Q f) → (∀ f ∈ frags, Q f) →
      ∀ chunk ∈ mergeAux chunk_size chunk_overlap cur frags, ∀ f ∈ chunk, Q f := by
  intro frags
  induction frags with
  | nil =>
    intro cur hcur _ chunk hchunk
    by_cases hc : cur.isEmpty
    · simp [mergeAux, hc] at hchunk
    · simp only [mergeAux, if_neg hc, List.mem_singleton] at hchunk
      subst hchunk
      exact hcur
  | cons f rest ih =>
    intro cur hcur hfr chunk hchunk
    by_cases hc : chunk_size < ((sumSizes cur + f.token_size : Nat) : Int) ∧ ¬cur.isEmpty
    · simp only [mergeAux, if_pos hc] at hchunk
      rcases List.mem_cons.mp hchunk with h | h
      · subst h
        exact hcur
      · refine ih (overlapWindow chunk_overlap cur ++ [f]) ?_
          (fun g hg => hfr g (List.mem_cons_of_mem f hg)) chunk h
        intro g hg
        rcases List.mem_append.mp hg with hw | hf
        · exact hcur g ((overlapWindow_isSuffix chunk_overlap cur).sublist.subset hw)
        · rw [List.mem_singleton] at hf
          rw [hf]
          exact hfr f (List.mem_cons_self f rest)
    · simp only [mergeAux, if_neg hc] at hchunk
      refine ih (cur ++ [f]) ?_
        (fun g hg => hfr g (List.mem_cons_of_mem f hg)) chunk hchunk
      intro g hg
      rcases List.mem_append.mp hg with hg | hg
      · exact hcur g hg
      · rw [List.mem_singleton] at hg
        rw [hg]
        exact hfr f (List.mem_cons_self f rest)

theorem sumSizes_append (a b : List Fragment) :
    sumSizes (a ++ b) = sumSizes a + sumSizes b := by
  simp [sumSizes]

/-- Size bound maintained by the merge loop: when every fragment fits
`chunk_size` and `chunk_overlap` is non-negative, every emitted chunk
carries at most `chunk_size + chunk_overlap` tokens worth of
fragments. -/
theorem mergeAux_sum_bound (chunk_size chunk_overlap : Int) (hco : 0 ≤ chunk_overlap) :
    ∀ (frags cur : List Fragment),
      (∀ f ∈ frags, (f.token_size : Int) ≤ chunk_size) →
      (cur = [] ∨ (sumSizes cur : Int) ≤ chunk_size + chunk_overlap) →
      ∀ chunk ∈ mergeAux chunk_size chunk_overlap cur frags,
        (sumSizes chunk : Int) ≤ chunk_size + chunk_overlap := by
  intro frags
  induction frags with
  | nil =>
    intro cur _ hcur chunk hchunk
    by_cases hc : cur.isEmpty
    · simp [mergeAux, hc] at hchunk
    · simp only [mergeAux, if_neg hc, List.mem_singleton] at hchunk
      subst hchunk
      rcases hcur with h | h
      · exact absurd h (by simpa using hc)
      · exact h
  | cons f rest ih =>
    intro cur hfr hcur chunk hchunk
    have hfx : (f.token_size : Int) ≤ chunk_size := hfr f (List.mem_cons_self f rest)
    have hfr' : ∀ g ∈ rest, (g.token_size : Int) ≤ chunk_size :=
      fun g hg => hfr g (List.mem_cons_of_mem f hg)
    by_cases hc : chunk_size < ((sumSizes cur + f.token_size : Nat) : Int) ∧ ¬cur.isEmpty
    · simp only [mergeAux, if_pos hc] at hchunk
      rcases List.mem_cons.mp hchunk with h | h
      · subst h
        rcases hcur with h | h
        · exact absurd (by simpa using h) hc.2
        · exact h
      · refine ih (overlapWindow chunk_overlap cur ++ [f]) hfr' (Or.inr ?_) chunk h
        have hw := overlapWindow_sum chunk_overlap hco cur
        have hsf : sumSizes [f] = f.token_size := by simp [sumSizes]
        rw [sumSizes_append, hsf]
        push_cast
        omega
    · simp only [mergeAux, if_neg hc] at hchunk
      refine ih (cur ++ [f]) hfr' (Or.inr ?_) chunk hchunk
      have hsf : sumSizes [f] = f.token_size := by simp [sumSizes]
      rw [sumSizes_append, hsf]
      by_cases hnil : cur.isEmpty
      · have hcn : cur = [] := by simpa using hnil
        rw [hcn]
        have hs0 : sumSizes ([] : List Fragment) = 0 := by simp [sumSizes]
        rw [hs0]
        push_cast
        omega
      · have hnl : ¬chunk_size < ((sumSizes cur + f.token_size : Nat) : Int) := by
          intro hlt
          exact hc ⟨hlt, hnil⟩
        push_cast at hnl ⊢
        omega

/-- The token count of a reassembled chunk is at most the sum of its
fragments' token sizes (consistency of `token_size` assumed). -/
theorem joinFrags_tokenLen :
    ∀ chunk : List Fragment, (∀ f ∈ chunk, f.token_size = tokenLen f.text) →
      tokenLen (joinFrags chunk) ≤ sumSizes chunk := by
  intro chunk
  induction chunk with
  | nil =>
    intro _
    simp [joinFrags, sumSizes, tokenLen, tokenizer, tokenizerAux]
  | cons f rest ih =>
    intro h
    have h1 : joinFrags (f :: rest) = f.text ++ joinFrags rest := by
      simp [joinFrags]
    rw [h1]
    have h2 := tokenLen_append f.text (joinFrags rest)
    have h3 := ih fun g hg => h g (List.mem_cons_of_mem f hg)
    have h4 := h f (List.mem_cons_self f rest)
    simp only [sumSizes, List.map_cons, List.sum_cons]
    simp only [sumSizes] at h3
    omega

/-- Sequencing of per-piece optional results, concatenated in order. -/
def optionFlatMap (g : List Char → Option (List Fragment)) :
    List (List Char) → Option (List Fragment)
  | [] => some []
  | p :: ps =>
    Option.bind (g p) fun head =>
      Option.bind (optionFlatMap g ps) fun tail => some (head ++ tail)

/-- Modelled from the spec (§4.3 Recursive Splitter), written directly
from its three numbered steps: a single sentence fragment when the whole
text fits the budget; otherwise the ordered sub-texts of the strategy
cascade, each emitted as a non-sentence fragment when it fits and
recursed into otherwise, with all resulting fragments appended in place
so that left-to-right order is preserved. -/
def splitAlgorithmSpec (chunk_size : Int) (separator : List Char) :
    Nat → List Char → Option (List Fragment)
  | 0, _ => none
  | fuel + 1, text =>
    if (tokenLen text : Int) ≤ chunk_size then
      some [{ text := text, is_sentence := true, token_size := tokenLen text }]
    else
      optionFlatMap
        (fun sub =>
          if (tokenLen sub : Int) ≤ chunk_size then
            some [{ text := sub, is_sentence := false, token_size := tokenLen sub }]
          else splitAlgorithmSpec chunk_size separator fuel sub)
        (split_by_fns text [split_by_sep separator] [split_by_char]).1

theorem splitPieces_eq_optionFlatMap (rec : List Char → Option (List Fragment))
    (chunk_size : Int) :
    ∀ ps, splitPieces rec chunk_size ps =
      optionFlatMap
        (fun p =>
          if (tokenLen p : Int) ≤ chunk_size then
            some [{ text := p, is_sentence := false, token_size := tokenLen p }]
          else rec p) ps := by
  intro ps
  induction ps with
  | nil => rfl
  | cons p ps ih =>
    simp only [splitPieces, optionFlatMap, ← ih]
    cases hA : (if (tokenLen p : Int) ≤ chunk_size then
        some [{ text := p, is_sentence := false, token_size := tokenLen p }]
      else rec p) with
    | none => cases splitPieces rec chunk_size ps <;> rfl
    | some head => cases splitPieces rec chunk_size ps <;> rfl

/-- The implementation's recursive splitter agrees with the algorithm as
specified, fuel for fuel. -/
theorem splitFuel_eq_spec (chunk_size : Int) (separator : List Char) :
    ∀ fuel text,
      TokenTextSplitter.splitFuel chunk_size separator fuel text =
        splitAlgorithmSpec chunk_size separator fuel text := by
  intro fuel
  induction fuel with
  | zero => intro text; rfl
  | succ fuel ih =>
    intro text
    simp only [TokenTextSplitter.splitFuel, splitAlgorithmSpec]
    by_cases hfit : (tokenLen text : Int) ≤ chunk_size
    · rw [if_pos hfit, if_pos hfit]
    · rw [if_neg hfit, if_neg hfit]
      rw [splitPieces_eq_optionFlatMap]
      congr 1
      funext p
      by_cases hp : (tokenLen p : Int) ≤ chunk_size
      · rw [if_pos hp, if_pos hp]
      · rw [if_neg hp, if_neg hp, ih p]

/-- With `chunk_size = 0` the recursion of `_split` never terminates on
the one-character text `a`: no strategy can split a single character, so
the loop recurses on the unchanged text — no amount of fuel suffices. -/
theorem splitFuel_diverges_on_a :
    ∀ fuel, TokenTextSplitter.splitFuel 0 default_separator fuel ['a'] = none := by
  intro fuel
  induction fuel with
  | zero => rfl
  | succ fuel ih =>
    have hpieces :
        (split_by_fns ['a'] [split_by_sep default_separator] [split_by_char]).1 = [['a']] := by
      decide
    simp only [TokenTextSplitter.splitFuel]
    rw [if_neg (by decide), hpieces]
    simp only [splitPieces]
    rw [if_neg (by decide), ih]

/-- One extra helper for C2/C7: whenever `_split` returns at all, every
returned fragment records the token count of its own text and fits the
budget (no positivity assumption on `chunk_size` needed). -/
theorem splitFuel_frags_inv (chunk_size : Int) (separator : List Char) :
    ∀ fuel text frags,
      TokenTextSplitter.splitFuel chunk_size separator fuel text = some frags →
      ∀ f ∈ frags, f.token_size = tokenLen f.text ∧ (f.token_size : Int) ≤ chunk_size := by
  intro fuel
  induction fuel with
  | zero =>
    intro text frags h
    exact absurd h (by simp [TokenTextSplitter.splitFuel])
  | succ fuel ih =>
    intro text frags h
    simp only [TokenTextSplitter.splitFuel] at h
    by_cases hfit : (tokenLen text : Int) ≤ chunk_size
    · rw [if_pos hfit] at h
      simp only [Option.some.injEq] at h
      subst h
      intro f hf
      simp only [List.mem_singleton] at hf
      subst hf
      exact ⟨rfl, hfit⟩
    · rw [if_neg hfit] at h
      exact splitPieces_mem _ chunk_size _ _ frags h
        (fun p _ hp => ⟨rfl, hp⟩)
        (fun p _ _ o ho => ih p o ho)

/-- C1 counterexample: constructing with `chunk_size = 10` and
`chunk_overlap = 10` succeeds — the code only rejects a strictly larger
overlap, so `chunk_overlap >= chunk_size` does not fail at equality. -/
theorem init_overlap_eq_size_succeeds :
    TokenTextSplitter.init 10 10 = Except.ok (10, 10) := by
  rfl

/-- C1 (amended): construction succeeds exactly when
`chunk_overlap <= chunk_size`; it fails exactly for a strictly larger
`chunk_overlap` (so `chunk_size = 10, chunk_overlap = 10` succeeds and
every `chunk_overlap < chunk_size` succeeds). -/
theorem init_ok_iff (chunk_size chunk_overlap : Int) :
    TokenTextSplitter.init chunk_size chunk_overlap = Except.ok (chunk_size, chunk_overlap) ↔
      chunk_overlap ≤ chunk_size := by
  unfold TokenTextSplitter.init
  by_cases h : chunk_overlap > chunk_size
  · rw [if_pos h]
    constructor
    · intro hx
      exact absurd hx (by simp)
    · intro hx
      omega
  · rw [if_neg h]
    constructor
    · intro _
      omega
    · intro _
      rfl

/-- C10: construction validates only `chunk_overlap <= chunk_size`: every
such pair is accepted, including equality, zero and negative values —
there is no positivity check on `chunk_size`. -/
theorem init_accepts_all_overlap_le_size (chunk_size chunk_overlap : Int)
    (h : chunk_overlap ≤ chunk_size) :
    TokenTextSplitter.init chunk_size chunk_overlap = Except.ok (chunk_size, chunk_overlap) := by
  unfold TokenTextSplitter.init
  rw [if_neg (by omega)]

theorem init_accepts_witness :
    TokenTextSplitter.init 0 (-3) = Except.ok (0, -3) :=
  init_accepts_all_overlap_le_size 0 (-3) (by decide)

/-- C3: a text whose token count fits `chunk_size` comes back from
`from_text` as exactly one chunk equal to the input text. -/
theorem from_text_fits_one_chunk (chunk_size chunk_overlap : Int)
    (separator text : List Char) (h : (tokenLen text : Int) ≤ chunk_size) :
    TokenTextSplitter.from_text chunk_size chunk_overlap separator text = some [text] := by
  unfold TokenTextSplitter.from_text TokenTextSplitter.splitText
  simp only [TokenTextSplitter.splitFuel]
  rw [if_pos h]
  simp [merge_splits, merge_frag_chunks, mergeAux, sumSizes, joinFrags]

theorem from_text_fits_one_chunk_witness :
    TokenTextSplitter.from_text 10 5 default_separator "hello world".toList =
      some ["hello world".toList] :=
  from_text_fits_one_chunk 10 5 default_separator "hello world".toList (by decide)

/-- C4: `_split` follows the specified recursive algorithm for every
input text and every amount of fuel: one sentence fragment when the text
fits, otherwise the strategy cascade's sub-texts in order, each emitted
as a non-sentence fragment when it fits and recursed into in place
otherwise, preserving left-to-right order. -/
theorem split_follows_spec_algorithm (chunk_size : Int) (separator : List Char)
    (fuel : Nat) (text : List Char) :
    TokenTextSplitter.splitFuel chunk_size separator fuel text =
      splitAlgorithmSpec chunk_size separator fuel text :=
  splitFuel_eq_spec chunk_size separator fuel text

/-- C6 counterexample: under the validly constructed configuration
`chunk_size = 0`, `chunk_overlap = 0`, the recursion of `_split` does
not terminate on the input `a` (here: `none` at the canonical fuel, and
`splitFuel_diverges_on_a` shows no fuel suffices): the unsplittable
over-budget piece is recursed on forever, not accepted as an oversized
leaf fragment. -/
theorem split_zero_budget_diverges :
    TokenTextSplitter.init 0 0 = Except.ok (0, 0) ∧
      TokenTextSplitter.splitText 0 default_separator ['a'] = none := by
  exact ⟨rfl, splitFuel_diverges_on_a (['a'].length + 1)⟩

/-- C6 (amended): for every positive `chunk_size` the recursion of
`_split` terminates on every input text (fuel `length + 1` suffices);
the code has no oversized-leaf acceptance — an unsplittable piece that
exceeds the budget (possible only when `chunk_size <= 0`, which
construction admits) is instead recursed on forever. -/
theorem split_terminates_of_pos_chunk_size (chunk_size : Int) (hcs : 1 ≤ chunk_size)
    (separator text : List Char) :
    (TokenTextSplitter.splitText chunk_size separator text).isSome = true := by
  obtain ⟨frags, hf, _, _⟩ :=
    splitFuel_sound chunk_size hcs separator (text.length + 1) text (by omega)
  simp [TokenTextSplitter.splitText, hf]

theorem split_terminates_witness :
    (TokenTextSplitter.splitText 1 default_separator "a b c".toList).isSome = true :=
  split_terminates_of_pos_chunk_size 1 (by decide) default_separator "a b c".toList

/-- C7 counterexample: with the validly constructed configuration
`chunk_size = 0`, `chunk_overlap = 0`, `from_text` on the input `a`
produces no result at all (the `_split` recursion inside it never
terminates, a `RecursionError` in Python), so a validly constructed
splitter does not return at least one chunk for every string input. -/
theorem from_text_zero_budget_none :
    TokenTextSplitter.init 0 0 = Except.ok (0, 0) ∧
      TokenTextSplitter.from_text 0 0 default_separator ['a'] = none := by
  refine ⟨rfl, ?_⟩
  unfold TokenTextSplitter.from_text
  rw [show TokenTextSplitter.splitText 0 default_separator ['a'] = none from
    splitFuel_diverges_on_a (['a'].length + 1)]
  rfl

/-- C7 (amended): for every positive `chunk_size` (and any
`chunk_overlap`), `from_text` returns normally on every string input and
produces at least one chunk; for `chunk_size <= 0`, which construction
admits, it can fail to return (see the counterexample). -/
theorem from_text_total_of_pos_chunk_size (chunk_size chunk_overlap : Int)
    (hcs : 1 ≤ chunk_size) (separator text : List Char) :
    (TokenTextSplitter.from_text chunk_size chunk_overlap separator text).isSome = true ∧
      1 ≤ ((TokenTextSplitter.from_text chunk_size chunk_overlap separator text).getD []).length := by
  obtain ⟨frags, hf, hne, _⟩ :=
    splitFuel_sound chunk_size hcs separator (text.length + 1) text (by omega)
  have hft : TokenTextSplitter.from_text chunk_size chunk_overlap separator text =
      some (merge_splits frags chunk_size chunk_overlap) := by
    unfold TokenTextSplitter.from_text TokenTextSplitter.splitText
    rw [hf]
    rfl
  refine ⟨by simp [hft], ?_⟩
  rw [hft]
  simp only [Option.getD_some]
  match frags, hne with
  | f :: rest, _ =>
    have h1 : mergeAux chunk_size chunk_overlap [] (f :: rest) =
        mergeAux chunk_size chunk_overlap [f] rest := by
      simp only [mergeAux]
      rw [if_neg (by simp)]
      rw [List.nil_append]
    have h2 := mergeAux_ne_nil chunk_size chunk_overlap rest [f] (by simp)
    have h3 : merge_splits (f :: rest) chunk_size chunk_overlap ≠ [] := by
      simp only [merge_splits, merge_frag_chunks, h1]
      simp [h2]
    have := List.length_pos.mpr h3
    omega

theorem from_text_total_witness :
    (TokenTextSplitter.from_text 1 0 default_separator "a b c".toList).isSome = true :=
  (from_text_total_of_pos_chunk_size 1 0 (by decide) default_separator "a b c".toList).1

/-- C9: whenever the input text itself exceeds the budget, every
fragment `_split` returns is marked `is_sentence = false`: the sentence
base case is reachable only when the whole text fits, recursion happens
only on over-budget sub-texts, and the `is_sentence` flag returned by
`split_by_fns` is discarded by the loop. -/
theorem split_fragments_not_sentence (chunk_size : Int) (separator : List Char)
    (fuel : Nat) (text : List Char) (frags : List Fragment)
    (hsplit : TokenTextSplitter.splitFuel chunk_size separator fuel text = some frags)
    (hbig : chunk_size < (tokenLen text : Int)) :
    ∀ f ∈ frags, f.is_sentence = false := by
  induction fuel generalizing text frags with
  | zero => exact absurd hsplit (by simp [TokenTextSplitter.splitFuel])
  | succ fuel ih =>
    simp only [TokenTextSplitter.splitFuel] at hsplit
    rw [if_neg (by omega)] at hsplit
    exact splitPieces_mem _ chunk_size _ _ frags hsplit
      (fun p _ _ => rfl)
      (fun p _ hp o ho => ih p o ho (by omega))

theorem split_fragments_not_sentence_witness :
    ({ text := ['a'], is_sentence := false, token_size := 1 } : Fragment).is_sentence = false :=
  split_fragments_not_sentence 1 default_separator 4 "a b".toList
    [{ text := ['a'], is_sentence := false, token_size := 1 },
     { text := [' '], is_sentence := false, token_size := 0 },
     { text := ['b'], is_sentence := false, token_size := 1 }]
    (by decide) (by decide)
    { text := ['a'], is_sentence := false, token_size := 1 } (by decide)

/-- C5: in the merge step, every chunk after the first one is seeded
with the backward overlap window of the immediately preceding chunk
only: the window is a suffix of the preceding chunk, laid down in
original order as a prefix of the next chunk, and its accumulated token
size is non-negative (a `Nat`) and at most `chunk_overlap`. -/
theorem merge_overlap_window_correct (chunk_size chunk_overlap : Int)
    (hco : 0 ≤ chunk_overlap) (splits : List Fragment) (i : Nat)
    (hi : i + 1 < (merge_frag_chunks chunk_size chunk_overlap splits).length) :
    overlapWindow chunk_overlap
        ((merge_frag_chunks chunk_size chunk_overlap splits).getD i []) <+:
      (merge_frag_chunks chunk_size chunk_overlap splits).getD (i + 1) [] ∧
    overlapWindow chunk_overlap
        ((merge_frag_chunks chunk_size chunk_overlap splits).getD i []) <:+
      (merge_frag_chunks chunk_size chunk_overlap splits).getD i [] ∧
    ((sumSizes (overlapWindow chunk_overlap
        ((merge_frag_chunks chunk_size chunk_overlap splits).getD i [])) : Nat) : Int) ≤
      chunk_overlap :=
  ⟨mergeAux_consecutive chunk_size chunk_overlap splits [] i hi,
   overlapWindow_isSuffix chunk_overlap _,
   overlapWindow_sum chunk_overlap hco _⟩

theorem merge_overlap_window_witness :
    overlapWindow 0
        ((merge_frag_chunks 1 0 [{ text := ['a'], is_sentence := false, token_size := 1 },
            { text := ['b'], is_sentence := false, token_size := 1 }]).getD 0 []) <+:
      (merge_frag_chunks 1 0 [{ text := ['a'], is_sentence := false, token_size := 1 },
          { text := ['b'], is_sentence := false, token_size := 1 }]).getD 1 [] ∧
    overlapWindow 0
        ((merge_frag_chunks 1 0 [{ text := ['a'], is_sentence := false, token_size := 1 },
            { text := ['b'], is_sentence := false, token_size := 1 }]).getD 0 []) <:+
      (merge_frag_chunks 1 0 [{ text := ['a'], is_sentence := false, token_size := 1 },
          { text := ['b'], is_sentence := false, token_size := 1 }]).getD 0 [] ∧
    ((sumSizes (overlapWindow 0
        ((merge_frag_chunks 1 0 [{ text := ['a'], is_sentence := false, token_size := 1 },
            { text := ['b'], is_sentence := false, token_size := 1 }]).getD 0 [])) : Nat) : Int) ≤
      0 :=
  merge_overlap_window_correct 1 0 (by decide)
    [{ text := ['a'], is_sentence := false, token_size := 1 },
     { text := ['b'], is_sentence := false, token_size := 1 }] 0 (by decide)

/-- C8: for an input document whose text splits into `k` chunks,
`from_documents` returns exactly those `k` documents, each carrying one
chunk as its text together with the source document's metadata (equal
metadata value — reference sharing is outside a pure model). -/
theorem from_documents_metadata {μ : Type} (chunk_size chunk_overlap : Int)
    (separator : List Char) (d : Document μ) (chunks : List (List Char))
    (h : TokenTextSplitter.from_text chunk_size chunk_overlap separator
        (Document.get_content d) = some chunks) :
    TokenTextSplitter.from_documents chunk_size chunk_overlap separator [d] =
      some (chunks.map fun t => { text := t, metadata := Document.get_metadata d }) ∧
    (chunks.map fun t =>
        ({ text := t, metadata := Document.get_metadata d } : Document μ)).length =
      chunks.length ∧
    ∀ o ∈ chunks.map fun t =>
        ({ text := t, metadata := Document.get_metadata d } : Document μ),
      o.metadata = d.metadata ∧ o.text ∈ chunks := by
  refine ⟨?_, by simp, ?_⟩
  · simp only [TokenTextSplitter.from_documents, h]
    simp
  · intro o ho
    obtain ⟨t, ht, rfl⟩ := List.mem_map.mp ho
    exact ⟨rfl, ht⟩

theorem from_documents_metadata_witness :
    TokenTextSplitter.from_documents 1 0 default_separator
        [({ text := "hi".toList, metadata := 42 } : Document Nat)] =
      some [{ text := "hi".toList, metadata := 42 }] :=
  (from_documents_metadata 1 0 default_separator
    ({ text := "hi".toList, metadata := 42 } : Document Nat) ["hi".toList] (by decide)).1

/-- Three paragraphs of nine one-letter words each, separated by the
default double-newline separator. -/
def exampleText : List Char :=
  "a b c d e f g h i\n\nj k l m n o p q r\n\ns t u v w x y z 0".toList

/-- C2 counterexample: with the valid configuration `chunk_size = 10`,
`chunk_overlap = 9`, the middle chunk produced for `exampleText` carries
17 tokens, exceeding `chunk_size`; the fragments `_split` produced are
three pieces of 9 tokens each, all within the budget, and the middle
chunk reassembles two of them — so it is not a chunk consisting of a
single oversized atomic fragment, and the claimed exception does not
apply. -/
theorem from_text_chunk_exceeds_chunk_size :
    TokenTextSplitter.init 10 9 = Except.ok (10, 9) ∧
    TokenTextSplitter.from_text 10 9 default_separator exampleText =
      some ["a b c d e f g h i".toList,
        "a b c d e f g h ij k l m n o p q r".toList,
        "j k l m n o p q rs t u v w x y z 0".toList] ∧
    tokenLen "a b c d e f g h ij k l m n o p q r".toList = 17 ∧
    TokenTextSplitter.splitText 10 default_separator exampleText =
      some [{ text := "a b c d e f g h i".toList, is_sentence := false, token_size := 9 },
        { text := "j k l m n o p q r".toList, is_sentence := false, token_size := 9 },
        { text := "s t u v w x y z 0".toList, is_sentence := false, token_size := 9 }] := by
  refine ⟨rfl, by decide, by decide, by decide⟩

/-- C2 (amended): for a non-negative `chunk_overlap`, every chunk
`from_text` returns has token count at most
`chunk_size + chunk_overlap`; the bound `chunk_size` alone claimed by
the spec can be exceeded by a chunk that is seeded with an overlap
window and then receives a fragment (see the counterexample), even
though every fragment individually fits the budget. -/
theorem from_text_chunk_token_bound (chunk_size chunk_overlap : Int)
    (hco : 0 ≤ chunk_overlap) (separator text : List Char) (chunks : List (List Char))
    (h : TokenTextSplitter.from_text chunk_size chunk_overlap separator text = some chunks) :
    ∀ c ∈ chunks, (tokenLen c : Int) ≤ chunk_size + chunk_overlap := by
  intro c hc
  unfold TokenTextSplitter.from_text at h
  match hs : TokenTextSplitter.splitText chunk_size separator text with
  | none =>
    rw [hs] at h
    exact absurd h (by simp)
  | some frags =>
    rw [hs] at h
    simp only [Option.map_some', Option.some.injEq] at h
    subst h
    have hinv := splitFuel_frags_inv chunk_size separator (text.length + 1) text frags hs
    simp only [merge_splits] at hc
    obtain ⟨chunkF, hchunkF, rfl⟩ := List.mem_map.mp hc
    have hsizes : ∀ f ∈ frags, (f.token_size : Int) ≤ chunk_size :=
      fun f hf => (hinv f hf).2
    have hbound := mergeAux_sum_bound chunk_size chunk_overlap hco frags []
      hsizes (Or.inl rfl) chunkF hchunkF
    have hmem := mergeAux_mem chunk_size chunk_overlap
      (fun f => f.token_size = tokenLen f.text) frags [] (by simp)
      (fun f hf => (hinv f hf).1) chunkF hchunkF
    have hjoin := joinFrags_tokenLen chunkF (fun f hf => hmem f hf)
    have hcast : (tokenLen (joinFrags chunkF) : Int) ≤ (sumSizes chunkF : Int) :=
      Int.ofNat_le.mpr hjoin
    omega

theorem from_text_chunk_token_bound_witness :
    (tokenLen "hi".toList : Int) ≤ 1 + 0 :=
  from_text_chunk_token_bound 1 0 (by decide) default_separator "hi".toList
    ["hi".toList] (by decide) "hi".toList (by decide)
